import Mathlib

/-!
Verification of the in-memory file/directory tree model of the WrappedFilesys
library (`wrapped_filesys.hpp`).  The C++ classes `wfs::File` and `wfs::Dir`
are embedded shallowly: the owning pointer `String* data_` becomes
`Option String` (with `none` for the null pointer), and the lazily allocated
child collections `Vec<File>* subFiles_` / `Vec<Dir>* subDirs_` become
`Option (List File)` / `Option (List Dir)`.  The disk is modelled as a tree of
entries, and the filesystem primitives the classes call (`createDirectory`,
`isFile`, `getAllFiles`, `getAllDirectorys`, stream open/read/write) are given
their documented semantics over that tree.  Exceptions become `Except Err`.
-/

namespace wfs

/-- The invalid characters in a filename (`FILENAME_INVALID_CHARS`). -/
def FILENAME_INVALID_CHARS : List Char := ['\\', '/', ':', '*', '?', '"', '<', '>', '|']

/-- wfs::isValidFilename: not empty, not "." or "..", and containing none of the
invalid characters. -/
def isValidFilename (filename : String) : Bool :=
  if filename.isEmpty then false
  else if filename = "." || filename = ".." then false
  else if filename.toList.any (fun c => FILENAME_INVALID_CHARS.contains c) then false
  else true

/-- The error kinds the library raises (all are `std::runtime_error` in the
source; they are distinguished here by the site that throws). -/
inductive Err where
  | invalidName
  | ioError
  | notDirectory
deriving Repr, DecidableEq

/-- wfs::File: a named leaf with an optional payload.  `data = none` models the
null `data_` pointer. -/
structure File where
  name : String := ""
  data : Option String := none
deriving Repr, DecidableEq

/-- File::setName: `name_ = name;` — the source performs no validation here
(unlike Dir::setName). -/
def File.setName (f : File) (name : String) : File := { f with name := name }

/-- File::data(): returns `*data_` or the empty string when the payload is
absent. -/
def File.dataStr (f : File) : String := f.data.getD ""

/-- File::size(): payload byte count, 0 when the payload is absent. -/
def File.size (f : File) : Nat := match f.data with | some d => d.length | none => 0

/-- File::releaseData(): frees the payload and nulls the pointer. -/
def File.releaseData (f : File) : File := { f with data := none }

/-- File::operator=(const File&).  The class declares a copy-assignment
operator and no move-assignment operator, so an assignment from
`std::move(...)` also resolves to this operator.  `aliased` records whether
`other` is the same object as `this` (self-assignment): the body first copies
the name, then releases `this->data_`, and only then reads `other.data_`,
which at that point is null when the two alias. -/
def File.assignOp (dst src : File) (aliased : Bool) : File :=
  let afterRelease : File := { dst with name := src.name, data := none }
  match (if aliased then (none : Option String) else src.data) with
  | some s => { afterRelease with data := some s }
  | none => afterRelease

/-- wfs::Dir: a named node with lazily allocated child collections.
`subFiles = none` / `subDirs = none` model the null `subFiles_` / `subDirs_`
pointers. -/
inductive Dir where
  | mk (name : String) (subFiles : Option (List File)) (subDirs : Option (List Dir))
deriving Repr

def Dir.name : Dir → String
  | .mk n _ _ => n

def Dir.subFiles : Dir → Option (List File)
  | .mk _ sf _ => sf

def Dir.subDirs : Dir → Option (List Dir)
  | .mk _ _ sd => sd

/-- The child-file collection viewed as a list (empty when unallocated). -/
def Dir.filesL (d : Dir) : List File := d.subFiles.getD []

/-- The child-dir collection viewed as a list (empty when unallocated). -/
def Dir.dirsL (d : Dir) : List Dir := d.subDirs.getD []

/-- Dir::files() returns `*subFiles_`, dereferencing the collection pointer
with no null check; the result is `none` exactly when the call dereferences a
null pointer (undefined behavior in the source). -/
def Dir.files (d : Dir) : Option (List File) := d.subFiles

/-- Dir::dirs() returns `*subDirs_`; `none` models the null dereference. -/
def Dir.dirs (d : Dir) : Option (List Dir) := d.subDirs

/-- The linear first-match name scan of Dir::hasFile_ / Dir::hasDir_. -/
def findNamedIdx {α : Type} (getName : α → String) : List α → String → Option Nat
  | [], _ => none
  | a :: l, n =>
    if getName a = n then some 0 else (findNamedIdx getName l n).map (· + 1)

/-- Dir::hasFile_ — index of the first child file with the given name
(the sentinel NOF_ is modelled as `none`). -/
def Dir.hasFileIdx (d : Dir) (name : String) : Option Nat :=
  findNamedIdx File.name d.filesL name

/-- Dir::hasDir_ — index of the first child dir with the given name. -/
def Dir.hasDirIdx (d : Dir) (name : String) : Option Nat :=
  findNamedIdx Dir.name d.dirsL name

/-- Dir::setName: validates via isValidFilename and throws on failure. -/
def Dir.setName (d : Dir) (name : String) : Except Err Dir :=
  if isValidFilename name then
    .ok (match d with | .mk _ sf sd => .mk name sf sd)
  else .error .invalidName

mutual
/-- Dir::size(): total payload bytes over all descendant files. -/
def Dir.size : Dir → Nat
  | .mk _ sf sd =>
    ((sf.getD []).map File.size).sum +
      (match sd with | none => 0 | some l => Dir.sizeL l)

def Dir.sizeL : List Dir → Nat
  | [] => 0
  | d :: ds => Dir.size d + Dir.sizeL ds
end

mutual
/-- Dir::fileCount(isRecursive): direct child files, plus — when recursive —
each child dir's fileCount() (whose defaulted argument is true). -/
def Dir.fileCount : Dir → Bool → Nat
  | .mk _ sf sd, isRecursive =>
    (sf.getD []).length +
      (if isRecursive then (match sd with | none => 0 | some l => Dir.fileCountL l) else 0)

def Dir.fileCountL : List Dir → Nat
  | [] => 0
  | d :: ds => Dir.fileCount d true + Dir.fileCountL ds
end

mutual
/-- Dir::dirCount(isRecursive). -/
def Dir.dirCount : Dir → Bool → Nat
  | .mk _ _ sd, isRecursive =>
    (sd.getD []).length +
      (if isRecursive then (match sd with | none => 0 | some l => Dir.dirCountL l) else 0)

def Dir.dirCountL : List Dir → Nat
  | [] => 0
  | d :: ds => Dir.dirCount d true + Dir.dirCountL ds
end

/-- Dir::count(isRecursive) = fileCount(isRecursive) + dirCount(isRecursive). -/
def Dir.count (d : Dir) (isRecursive : Bool) : Nat :=
  d.fileCount isRecursive + d.dirCount isRecursive

mutual
/-- Dir::hasFile(name, isRecursive). -/
def Dir.hasFile : Dir → String → Bool → Bool
  | .mk n sf sd, name, isRecursive =>
    (Dir.hasFileIdx (.mk n sf sd) name).isSome ||
      (isRecursive &&
        (match sd with | none => false | some l => Dir.hasFileL l name))

def Dir.hasFileL : List Dir → String → Bool
  | [], _ => false
  | d :: ds, name => Dir.hasFile d name true || Dir.hasFileL ds name
end

mutual
/-- Dir::hasDir(name, isRecursive). -/
def Dir.hasDir : Dir → String → Bool → Bool
  | .mk n sf sd, name, isRecursive =>
    (Dir.hasDirIdx (.mk n sf sd) name).isSome ||
      (isRecursive &&
        (match sd with | none => false | some l => Dir.hasDirL l name))

def Dir.hasDirL : List Dir → String → Bool
  | [], _ => false
  | d :: ds, name => Dir.hasDir d name true || Dir.hasDirL ds name
end

mutual
/-- Dir::releaseAllFilesData(): recursively releases every descendant file's
payload; nodes and collections are kept. -/
def Dir.releaseAllFilesData : Dir → Dir
  | .mk n sf sd =>
    .mk n (sf.map (List.map File.releaseData))
      (match sd with | none => none | some l => some (Dir.releaseAllFilesDataL l))

def Dir.releaseAllFilesDataL : List Dir → List Dir
  | [] => []
  | d :: ds => d.releaseAllFilesData :: Dir.releaseAllFilesDataL ds
end

/-- Dir::add(File&, bool).  Returns the updated directory together with the
state of the caller-supplied node after the call: the append branch
`emplace_back(std::move(file))` moves the payload out via the move constructor
(which copies the name and nulls the source `data_`); the overwrite branch
`(*subFiles_)[pos] = std::move(file)` resolves to the copy-assignment operator
(File declares no move-assignment operator), leaving the source untouched; the
no-op branch returns without touching the source.  The collection is allocated
before the lookup, as in the source. -/
def Dir.addFile (d : Dir) (file : File) (isOverwrite : Bool) : Dir × File :=
  match d with
  | .mk n sf sd =>
    let sf0 := sf.getD []
    match findNamedIdx File.name sf0 file.name with
    | some pos =>
      if isOverwrite then
        (.mk n (some (sf0.set pos ⟨file.name, file.data⟩)) sd, file)
      else
        (.mk n (some sf0) sd, file)
    | none => (.mk n (some (sf0 ++ [file])) sd, { file with data := none })

/-- Dir::add(Dir&, bool), with the same consumption behaviour as addFile:
the move constructor copies the name and nulls both collection pointers of the
source; the overwrite branch resolves to the copy-assignment operator. -/
def Dir.addDir (d : Dir) (dir : Dir) (isOverwrite : Bool) : Dir × Dir :=
  match d with
  | .mk n sf sd =>
    let sd0 := sd.getD []
    match findNamedIdx Dir.name sd0 dir.name with
    | some pos =>
      if isOverwrite then
        (.mk n sf (some (sd0.set pos dir)), dir)
      else
        (.mk n sf (some sd0), dir)
    | none => (.mk n sf (some (sd0 ++ [dir])), .mk dir.name none none)

/-- Dir::file(name): accessor-or-create.  Returns the updated directory and
the index of the referenced child (the C++ returns a mutable reference into
`*subFiles_`).  The created child comes from `File(name)`, whose constructor
calls File::setName and hence performs no validation. -/
def Dir.file (d : Dir) (name : String) : Dir × Nat :=
  match d.hasFileIdx name with
  | some pos => (d, pos)
  | none =>
    let d' := (d.addFile (File.mk name none) false).1
    (d', d'.filesL.length - 1)

/-- Dir::dir(name): accessor-or-create.  The created child comes from
`Dir(name)`, whose constructor calls Dir::setName, which throws on an invalid
name. -/
def Dir.dir (d : Dir) (name : String) : Except Err (Dir × Nat) :=
  match d.hasDirIdx name with
  | some pos => .ok (d, pos)
  | none =>
    if isValidFilename name then
      let d' := (d.addDir (Dir.mk name none none) false).1
      .ok (d', d'.dirsL.length - 1)
    else .error .invalidName

/-- Dir::operator=(const Dir&) with aliasing made explicit.  The body copies
the name, calls clear() (freeing and nulling both collections), and then copies
`other`'s collections — which are already nulled when `other` aliases
`this`. -/
def Dir.assignOp (dst src : Dir) (aliased : Bool) : Dir :=
  .mk src.name
    (if aliased then none else src.subFiles)
    (if aliased then none else src.subDirs)

/-! ## Disk model

The real filesystem is modelled as a tree of entries; a directory holds its
entries in enumeration order (`fs::directory_iterator` order), which is also
the order in which they were created.  Paths are lists of name components. -/

/-- A filesystem entry: a regular file with its byte content, or a directory
with its ordered entries. -/
inductive Entry where
  | file (content : String)
  | dir (entries : List (String × Entry))
deriving Repr

abbrev Path := List String

/-- First entry with the given name (directory entries have unique names). -/
def findEntry : List (String × Entry) → String → Option Entry
  | [], _ => none
  | (m, e) :: es, n => if m = n then some e else findEntry es n

/-- Replace the first entry with the given name. -/
def replaceEntry : List (String × Entry) → String → Entry → List (String × Entry)
  | [], _, _ => []
  | (m, e) :: es, n, e' =>
    if m = n then (m, e') :: es else (m, e) :: replaceEntry es n e'

/-- Resolve a path from this entry. -/
def Entry.lookup : Entry → Path → Option Entry
  | e, [] => some e
  | .file _, _ :: _ => none
  | .dir es, n :: p =>
    match findEntry es n with
    | some e => e.lookup p
    | none => none

/-- Apply `f` to the entry list of the directory at `p` (none when `p` does not
resolve to a directory). -/
def Entry.modifyAt (f : List (String × Entry) → List (String × Entry)) :
    Entry → Path → Option Entry
  | .dir es, [] => some (.dir (f es))
  | .file _, [] => none
  | .file _, _ :: _ => none
  | .dir es, n :: p =>
    match findEntry es n with
    | none => none
    | some e =>
      match e.modifyAt f p with
      | none => none
      | some e' => some (.dir (replaceEntry es n e'))

/-- wfs::isFile(path): exists and is a regular file. -/
def Entry.isFileAt (disk : Entry) (p : Path) : Bool :=
  match disk.lookup p with
  | some (.file _) => true
  | _ => false

/-- wfs::createDirectory(parent/name), i.e. fs::create_directory: returns the
disk unchanged when the target already exists as a directory (the `false`
return value is ignored by the caller), fails when it exists as a regular file
or when the parent does not resolve to a directory, and otherwise appends a
fresh empty directory entry. -/
def fsCreateDirectory (disk : Entry) (parent : Path) (name : String) :
    Except Err Entry :=
  match disk.lookup (parent ++ [name]) with
  | some (.dir _) => .ok disk
  | some (.file _) => .error .ioError
  | none =>
    match disk.modifyAt (fun es => es ++ [(name, .dir [])]) parent with
    | some disk' => .ok disk'
    | none => .error .ioError

/-- File::write(path, isOverwrite): the target is `path/name_`.  If the target
is an existing regular file and `isOverwrite` is false, silently do nothing.
Otherwise open an output stream on the target: this fails when the target is an
existing directory or when `path` does not resolve to a directory, and
otherwise creates or truncates the target; the stream then receives `*data_`
when the payload is present, so the resulting content is `data()`. -/
def File.write (f : File) (path : Path) (isOverwrite : Bool) (disk : Entry) :
    Except Err Entry :=
  if !isOverwrite && disk.isFileAt (path ++ [f.name]) then .ok disk
  else
    match disk.lookup (path ++ [f.name]) with
    | some (.dir _) => .error .ioError
    | some (.file _) =>
      match disk.modifyAt (fun es => replaceEntry es f.name (.file f.dataStr)) path with
      | some disk' => .ok disk'
      | none => .error .ioError
    | none =>
      match disk.modifyAt (fun es => es ++ [(f.name, .file f.dataStr)]) path with
      | some disk' => .ok disk'
      | none => .error .ioError

/-- Events recorded while materializing a tree: every call of Dir::write, of
createDirectory and of File::write, with the arguments it received. -/
inductive Ev where
  | dcall (parent : Path) (name : String) (isOverwrite : Bool)
  | mkdir (parent : Path) (name : String)
  | fwrite (dir : Path) (name : String) (isOverwrite : Bool)
deriving Repr, DecidableEq

/-- The file-writing loop of Dir::write. -/
def Dir.writeFilesL (fs : List File) (root : Path) (isOverwrite : Bool)
    (disk : Entry) : Except Err (Entry × List Ev) :=
  match fs with
  | [] => .ok (disk, [])
  | f :: rest =>
    match f.write root isOverwrite disk with
    | .error e => .error e
    | .ok disk1 =>
      match Dir.writeFilesL rest root isOverwrite disk1 with
      | .error e => .error e
      | .ok (disk2, evs) => .ok (disk2, .fwrite root f.name isOverwrite :: evs)

mutual
/-- Dir::write(path, isOverwrite): `root = path/name_`; createDirectory(root)
(return value ignored, exceptions propagate), then every child file is written
into root with the same flag, then every child dir recurses with the same
flag. -/
def Dir.write : Dir → Path → Bool → Entry → Except Err (Entry × List Ev)
  | .mk n sf sd, path, isOverwrite, disk =>
    match fsCreateDirectory disk path n with
    | .error e => .error e
    | .ok disk1 =>
      match Dir.writeFilesL (sf.getD []) (path ++ [n]) isOverwrite disk1 with
      | .error e => .error e
      | .ok (disk2, evf) =>
        match sd with
        | none => .ok (disk2, .dcall path n isOverwrite :: .mkdir path n :: evf)
        | some l =>
          match Dir.writeL l (path ++ [n]) isOverwrite disk2 with
          | .error e => .error e
          | .ok (disk3, evd) =>
            .ok (disk3, .dcall path n isOverwrite :: .mkdir path n :: (evf ++ evd))

def Dir.writeL : List Dir → Path → Bool → Entry → Except Err (Entry × List Ev)
  | [], _, _, disk => .ok (disk, [])
  | d :: ds, path, isOverwrite, disk =>
    match Dir.write d path isOverwrite disk with
    | .error e => .error e
    | .ok (disk1, ev1) =>
      match Dir.writeL ds path isOverwrite disk1 with
      | .error e => .error e
      | .ok (disk2, ev2) => .ok (disk2, ev1 ++ ev2)
end

mutual
/-- The disk image a tree materializes to: child files first (in collection
order), then child directories, matching the creation order of Dir::write. -/
def Dir.mat : Dir → Entry
  | .mk _ sf sd =>
    .dir ((sf.getD []).map (fun f => (f.name, Entry.file f.dataStr)) ++
      (match sd with | none => [] | some l => Dir.matL l))

def Dir.matL : List Dir → List (String × Entry)
  | [] => []
  | d :: ds => (d.name, d.mat) :: Dir.matL ds
end

mutual
/-- Closed form of the event trace of a successful Dir::write call. -/
def Dir.expectedTrace : Dir → Path → Bool → List Ev
  | .mk n sf sd, path, isOverwrite =>
    .dcall path n isOverwrite :: .mkdir path n ::
      ((sf.getD []).map (fun f => Ev.fwrite (path ++ [n]) f.name isOverwrite) ++
        (match sd with
         | none => []
         | some l => Dir.expectedTraceL l (path ++ [n]) isOverwrite))

def Dir.expectedTraceL : List Dir → Path → Bool → List Ev
  | [], _, _ => []
  | d :: ds, path, isOverwrite =>
    Dir.expectedTrace d path isOverwrite ++ Dir.expectedTraceL ds path isOverwrite
end

/-- Pairwise-distinct names. -/
def namesDistinct (ns : List String) : Bool := ns.Nodup

mutual
/-- Well-formedness of an in-memory tree as built through the public API:
every name is a valid filename, and names are unique within each kind of each
directory. -/
def Dir.WF : Dir → Bool
  | .mk n sf sd =>
    isValidFilename n &&
      ((sf.getD []).map File.name).all isValidFilename &&
      namesDistinct ((sf.getD []).map File.name) &&
      namesDistinct ((sd.getD []).map Dir.name) &&
      (match sd with | none => true | some l => Dir.WFL l)

def Dir.WFL : List Dir → Bool
  | [] => true
  | d :: ds => Dir.WF d && Dir.WFL ds
end

mutual
/-- Every descendant file has a present (possibly empty) payload. -/
def Dir.allPayloadsPresent : Dir → Bool
  | .mk _ sf sd =>
    ((sf.getD []).all (fun f => f.data.isSome)) &&
      (match sd with | none => true | some l => Dir.allPayloadsPresentL l)

def Dir.allPayloadsPresentL : List Dir → Bool
  | [] => true
  | d :: ds => Dir.allPayloadsPresent d && Dir.allPayloadsPresentL ds
end

/-- The file loop of Dir::fromDiskPath: each regular-file entry is read in full
(File::fromDiskPath names the node after the path's last component and reads
the content) and inserted. -/
def Dir.fromEntriesF (root : Dir) : List (String × Entry) → Dir
  | [] => root
  | (_, .dir _) :: es => Dir.fromEntriesF root es
  | (n, .file c) :: es => Dir.fromEntriesF (root.addFile ⟨n, some c⟩ false).1 es

mutual
/-- Dir::fromDiskPath on a resolved entry, named `ename` (the path's last
component).  The constructor `Dir root(filenameEx(dirpath))` validates the name
first; then getAllDirectorys (which throws when the entry is not a directory)
enumerates the subdirectory entries in order, each being loaded recursively and
inserted via `root << ...`; then getAllFiles enumerates the file entries, each
read in full and inserted. -/
def Dir.fromEntry (ename : String) (e : Entry) : Except Err Dir :=
  if isValidFilename ename then
    match e with
    | .file _ => .error .notDirectory
    | .dir es =>
      match Dir.fromEntriesD (Dir.mk ename none none) es with
      | .error err => .error err
      | .ok root1 =>
        .ok (Dir.fromEntriesF root1 es)
  else .error .invalidName

/-- The subdirectory loop: recursively load each directory entry and insert. -/
def Dir.fromEntriesD (root : Dir) : List (String × Entry) → Except Err Dir
  | [] => .ok root
  | (n, .file _) :: es => Dir.fromEntriesD root es
  | (n, .dir ces) :: es =>
    match Dir.fromEntry n (.dir ces) with
    | .error err => .error err
    | .ok child => Dir.fromEntriesD (root.addDir child false).1 es
end

/-- Dir::fromDiskPath(dirpath): the root node is named after the last path
component (validated by the Dir constructor before enumeration starts); then
the entry at the path is loaded. -/
def Dir.fromDiskPath (disk : Entry) (p : Path) : Except Err Dir :=
  match disk.lookup p with
  | some e => Dir.fromEntry (p.getLastD "") e
  | none =>
    if isValidFilename (p.getLastD "") then .error .notDirectory
    else .error .invalidName

/-- Observable payload content of the child files, in collection order. -/
def Dir.filesPairs (d : Dir) : List (String × Option String) :=
  d.filesL.map (fun f => (f.name, f.data))

mutual
/-- The relation claimed by the round-trip property: same name, same child
files (name and payload bytes) up to order, and the child directories match up
to order, recursively. -/
def Dir.SameShape : Dir → Dir → Prop
  | .mk n1 sf1 sd1, d2 =>
    n1 = d2.name ∧ ((sf1.getD []).map (fun f => (f.name, f.data))).Perm d2.filesPairs ∧
      (match sd1 with
       | none => d2.dirsL = []
       | some l1 => ∃ l2, d2.dirsL.Perm l2 ∧ Dir.SameShapeL l1 l2)

def Dir.SameShapeL : List Dir → List Dir → Prop
  | [], [] => True
  | d1 :: t1, d2 :: t2 => Dir.SameShape d1 d2 ∧ Dir.SameShapeL t1 t2
  | _, _ => False
end

/-- The name structure of a tree: the node name, its child-file names and the
shapes of its child dirs, in order. -/
inductive NShape where
  | mk (name : String) (fileNames : List String) (subs : List NShape)
deriving Repr

mutual
/-- The name structure (tree shape and all names) of a directory tree. -/
def Dir.shape : Dir → NShape
  | .mk n sf sd =>
    .mk n ((sf.getD []).map File.name)
      (match sd with | none => [] | some l => Dir.shapeL l)

def Dir.shapeL : List Dir → List NShape
  | [] => []
  | d :: ds => d.shape :: Dir.shapeL ds
end

mutual
/-- All nodes of the subtree rooted here (the node itself and every descendant
directory). -/
def Dir.allNodes : Dir → List Dir
  | .mk n sf sd =>
    .mk n sf sd :: (match sd with | none => [] | some l => Dir.allNodesL l)

def Dir.allNodesL : List Dir → List Dir
  | [] => []
  | d :: ds => d.allNodes ++ Dir.allNodesL ds
end

/-! ## Concrete instances used by witnesses and counterexamples -/

/-- A sample in-memory tree: `proj` holding `a.txt`, `c.txt` and a subdirectory
`src` holding `b.txt`, all payloads present. -/
def sampleTree : Dir :=
  Dir.mk "proj"
    (some [⟨"a.txt", some "hi"⟩, ⟨"c.txt", some "yo"⟩])
    (some [Dir.mk "src" (some [⟨"b.txt", some "bye"⟩]) none])

/-- The tree of the count example: a root with 2 files and 1 subdirectory that
itself holds 3 files. -/
def countExampleTree : Dir :=
  Dir.mk "r"
    (some [⟨"a", some ""⟩, ⟨"b", some ""⟩])
    (some [Dir.mk "s" (some [⟨"x", some ""⟩, ⟨"y", some ""⟩, ⟨"z", some ""⟩]) none])

/-! ## Theorems -/

theorem fileCountL_eq (l : List Dir) :
    Dir.fileCountL l = (l.map (fun c => c.fileCount true)).sum := by
  induction l with
  | nil => simp [Dir.fileCountL]
  | cons d ds ih => simp [Dir.fileCountL, ih]

theorem dirCountL_eq (l : List Dir) :
    Dir.dirCountL l = (l.map (fun c => c.dirCount true)).sum := by
  induction l with
  | nil => simp [Dir.dirCountL]
  | cons d ds ih => simp [Dir.dirCountL, ih]

theorem sizeL_eq (l : List Dir) : Dir.sizeL l = (l.map Dir.size).sum := by
  induction l with
  | nil => simp [Dir.sizeL]
  | cons d ds ih => simp [Dir.sizeL, ih]

theorem fileCount_false_eq (d : Dir) : d.fileCount false = d.filesL.length := by
  cases d with
  | mk n sf sd => simp [Dir.fileCount, Dir.filesL, Dir.subFiles]

theorem dirCount_false_eq (d : Dir) : d.dirCount false = d.dirsL.length := by
  cases d with
  | mk n sf sd => simp [Dir.dirCount, Dir.dirsL, Dir.subDirs]

theorem fileCount_true_eq (d : Dir) :
    d.fileCount true = d.filesL.length + (d.dirsL.map (fun c => c.fileCount true)).sum := by
  cases d with
  | mk n sf sd =>
    cases sd with
    | none => simp [Dir.fileCount, Dir.filesL, Dir.dirsL, Dir.subFiles, Dir.subDirs]
    | some l =>
      simp [Dir.fileCount, Dir.filesL, Dir.dirsL, Dir.subFiles, Dir.subDirs, fileCountL_eq]

theorem dirCount_true_eq (d : Dir) :
    d.dirCount true = d.dirsL.length + (d.dirsL.map (fun c => c.dirCount true)).sum := by
  cases d with
  | mk n sf sd =>
    cases sd with
    | none => simp [Dir.dirCount, Dir.dirsL, Dir.subDirs]
    | some l => simp [Dir.dirCount, Dir.dirsL, Dir.subDirs, dirCountL_eq]

/-- C1: the claim says File::setName fails with InvalidNameError on an invalid
name; in the source File::setName performs no validation at all (every call
succeeds and stores the name verbatim), even though isValidFilename rejects the
name and Dir::setName — specified to use the same validation — does throw.
Evaluated at the failing input `".."`. -/
theorem c1_file_setName_skips_validation :
    (∀ (f : File) (n : String), (f.setName n).name = n ∧ (f.setName n).data = f.data) ∧
    (File.mk "a.txt" (some "hi")).setName ".." = File.mk ".." (some "hi") ∧
    isValidFilename ".." = false ∧
    (Dir.mk "d" none none).setName ".." = .error .invalidName := by
  refine ⟨fun f n => ⟨rfl, rfl⟩, rfl, by decide, rfl⟩

/-- C3 counterexample: a directory already holding a file `a.txt` with payload
`p`; inserting a node named `a.txt` with payload `q` leaves the caller-supplied
node still holding its payload — both with overwrite (the assignment resolves
to the copy-assignment operator) and without (the call returns before touching
the argument) — so the node is not consumed. -/
theorem c3_counterexample :
    (((Dir.mk "d" (some [⟨"a.txt", some "p"⟩]) none).addFile ⟨"a.txt", some "q"⟩ true).2.data
        = some "q") ∧
    (((Dir.mk "d" (some [⟨"a.txt", some "p"⟩]) none).addFile ⟨"a.txt", some "q"⟩ false).2.data
        = some "q") ∧
    (((Dir.mk "d" none (some [Dir.mk "a" (some [⟨"f.txt", some "x"⟩]) none])).addDir
        (Dir.mk "a" (some [⟨"g.txt", some "y"⟩]) none) true).2.subFiles
        = some [⟨"g.txt", some "y"⟩]) := by
  refine ⟨rfl, rfl, rfl⟩

/-- C3 amended: the caller-supplied node is consumed (payload or child
collections transferred out) only when it is appended as a new child; when a
same-kind same-name child already exists, the node is left unchanged both in
the overwrite case (where the `std::move` resolves to the copy-assignment
operator) and in the no-op case. -/
theorem c3_amended (d : Dir) (file : File) (dir : Dir) (isOverwrite : Bool) :
    (d.addFile file isOverwrite).2 =
      (match d.hasFileIdx file.name with
       | some _ => file
       | none => { file with data := none }) ∧
    (d.addDir dir isOverwrite).2 =
      (match d.hasDirIdx dir.name with
       | some _ => dir
       | none => Dir.mk dir.name none none) := by
  cases d with
  | mk n sf sd =>
    constructor
    · simp only [Dir.addFile, Dir.hasFileIdx, Dir.filesL, Dir.subFiles]
      cases findNamedIdx File.name (sf.getD []) file.name with
      | none => simp
      | some pos => cases isOverwrite <;> simp
    · simp only [Dir.addDir, Dir.hasDirIdx, Dir.dirsL, Dir.subDirs]
      cases findNamedIdx Dir.name (sd.getD []) dir.name with
      | none => simp
      | some pos => cases isOverwrite <;> simp

/-- C4 counterexample: on a directory on which nothing has ever been inserted,
files() dereferences the null `subFiles_` pointer (modelled `none`), whereas on
a directory whose collection is an allocated empty vector it returns that empty
collection — so not every public observation behaves as on an empty ordered
set. -/
theorem c4_counterexample :
    (Dir.mk "d" none none).files = none ∧
    (Dir.mk "d" (some []) (some [])).files = some [] ∧
    (Dir.mk "d" none none).dirs = none := by
  refine ⟨rfl, rfl, rfl⟩

/-- C4 amended: with the exception of files()/dirs() — which dereference the
unallocated collection — every public observation of a never-inserted
directory (size, the counting operations, hasFile/hasDir, the name lookups,
and writeToDisk) behaves exactly as on a directory whose child collections are
allocated and empty. -/
theorem c4_amended (n nm : String) (b isOverwrite : Bool) (p : Path) (disk : Entry) :
    (Dir.mk n none none).size = (Dir.mk n (some []) (some [])).size ∧
    (Dir.mk n none none).fileCount b = (Dir.mk n (some []) (some [])).fileCount b ∧
    (Dir.mk n none none).dirCount b = (Dir.mk n (some []) (some [])).dirCount b ∧
    (Dir.mk n none none).count b = (Dir.mk n (some []) (some [])).count b ∧
    (Dir.mk n none none).hasFile nm b = (Dir.mk n (some []) (some [])).hasFile nm b ∧
    (Dir.mk n none none).hasDir nm b = (Dir.mk n (some []) (some [])).hasDir nm b ∧
    (Dir.mk n none none).hasFileIdx nm = (Dir.mk n (some []) (some [])).hasFileIdx nm ∧
    (Dir.mk n none none).hasDirIdx nm = (Dir.mk n (some []) (some [])).hasDirIdx nm ∧
    (Dir.mk n none none).write p isOverwrite disk =
      (Dir.mk n (some []) (some [])).write p isOverwrite disk := by
  refine ⟨rfl, ?_, ?_, ?_, ?_, ?_, rfl, rfl, ?_⟩
  · cases b <;> rfl
  · cases b <;> rfl
  · cases b <;> rfl
  · cases b <;> rfl
  · cases b <;> rfl
  · cases hc : fsCreateDirectory disk p n with
    | error e => simp [Dir.write, hc]
    | ok disk1 => simp only [Dir.write, hc, Dir.writeFilesL, Dir.writeL]; rfl

/-- C6: the counting operations — non-recursive counts count only direct
children; recursive counts equal the direct count plus the recursive count
summed over the child directories (no directory counts itself); on a root with
2 files and 1 subdirectory holding 3 files, count(true) = 6 and
count(false) = 3. -/
theorem c6_counts :
    (∀ d : Dir,
      d.fileCount false = d.filesL.length ∧
      d.dirCount false = d.dirsL.length ∧
      d.count false = d.filesL.length + d.dirsL.length ∧
      d.fileCount true = d.filesL.length + (d.dirsL.map (fun c => c.fileCount true)).sum ∧
      d.dirCount true = d.dirsL.length + (d.dirsL.map (fun c => c.dirCount true)).sum ∧
      d.count true = (d.filesL.length + d.dirsL.length) +
        (d.dirsL.map (fun c => c.count true)).sum) ∧
    countExampleTree.count true = 6 ∧ countExampleTree.count false = 3 := by
  refine ⟨fun d => ⟨fileCount_false_eq d, dirCount_false_eq d, ?_, fileCount_true_eq d,
    dirCount_true_eq d, ?_⟩, by decide, by decide⟩
  · rw [Dir.count, fileCount_false_eq, dirCount_false_eq]
  · have hsplit : (d.dirsL.map (fun c => c.count true)).sum =
        (d.dirsL.map (fun c => c.fileCount true)).sum +
        (d.dirsL.map (fun c => c.dirCount true)).sum := by
      induction d.dirsL with
      | nil => simp
      | cons c cs ih =>
        simp only [List.map_cons, List.sum_cons, ih]
        rw [Dir.count]
        omega
    rw [Dir.count, fileCount_true_eq d, dirCount_true_eq d, hsplit]
    omega

/-- C9 counterexample: on a directory with no child named `..`, dir("..") does
not create-and-insert a child; the Dir constructor used by the create branch
validates the name and throws InvalidNameError. -/
theorem c9_counterexample :
    (Dir.mk "root" none none).dir ".." = .error .invalidName := rfl

/-- C9 amended: file(name) behaves as accessor-or-create for every name (the
File constructor does not validate); dir(name) returns the existing child when
present, and otherwise creates-and-inserts only when the name is valid,
failing with InvalidNameError when it is not. In the create case the directory
gains exactly one new child, appended at the end, and the returned reference
(modelled by an index) designates that new child. -/
theorem c9_amended (d : Dir) (x : String) :
    (match d.hasFileIdx x with
     | some i => d.file x = (d, i)
     | none =>
       d.file x =
         ((match d with
           | .mk n sf sd => Dir.mk n (some (d.filesL ++ [⟨x, none⟩])) sd), d.filesL.length)) ∧
    (match d.hasDirIdx x with
     | some i => d.dir x = .ok (d, i)
     | none =>
       if isValidFilename x then
         d.dir x =
           .ok ((match d with
             | .mk n sf sd => Dir.mk n sf (some (d.dirsL ++ [Dir.mk x none none]))),
             d.dirsL.length)
       else d.dir x = .error .invalidName) := by
  cases d with
  | mk n sf sd =>
    constructor
    · cases hidx : Dir.hasFileIdx (.mk n sf sd) x with
      | some i => simp [Dir.file, hidx]
      | none =>
        simp only [Dir.file, hidx, Dir.addFile, Dir.filesL, Dir.subFiles]
        have : findNamedIdx File.name (sf.getD []) x = none := by
          simpa [Dir.hasFileIdx, Dir.filesL, Dir.subFiles] using hidx
        simp [this, File.name]
    · cases hidx : Dir.hasDirIdx (.mk n sf sd) x with
      | some i => simp [Dir.dir, hidx]
      | none =>
        by_cases hv : isValidFilename x
        · simp only [Dir.dir, hidx, hv, if_true, Dir.addDir, Dir.dirsL, Dir.subDirs]
          have : findNamedIdx Dir.name (sd.getD []) x = none := by
            simpa [Dir.hasDirIdx, Dir.dirsL, Dir.subDirs] using hidx
          simp [this, hv, Dir.name, Dir.subDirs]
        · simp [Dir.dir, hidx, hv]

theorem findNamedIdx_decomp {α : Type} (getName : α → String) (l : List α) (n : String)
    (i : Nat) (h : findNamedIdx getName l n = some i) :
    ∃ l₁ a l₂, l = l₁ ++ a :: l₂ ∧ l₁.length = i ∧ getName a = n ∧
      ∀ b ∈ l₁, getName b ≠ n := by
  induction l generalizing i with
  | nil => simp [findNamedIdx] at h
  | cons a t ih =>
    by_cases ha : getName a = n
    · simp only [findNamedIdx, ha, if_true, Option.some.injEq] at h
      exact ⟨[], a, t, by simp, by simp [← h], ha, by simp⟩
    · simp only [findNamedIdx, ha, if_false] at h
      cases ht : findNamedIdx getName t n with
      | none => rw [ht] at h; simp at h
      | some j =>
        rw [ht] at h
        simp only [Option.map_some', Option.some.injEq] at h
        obtain ⟨l₁, b, l₂, hl, hlen, hb, hfresh⟩ := ih j ht
        exact ⟨a :: l₁, b, l₂, by simp [hl], by simp [hlen, ← h, Nat.add_comm], hb,
          by intro c hc; rcases List.mem_cons.1 hc with h1 | h1
             · exact h1 ▸ ha
             · exact hfresh c h1⟩

theorem set_at_append {α : Type} (l₁ : List α) (a v : α) (l₂ : List α) :
    (l₁ ++ a :: l₂).set l₁.length v = l₁ ++ v :: l₂ := by
  induction l₁ with
  | nil => rfl
  | cons b t ih => simpa [List.length_cons, List.set] using ih

/-- C5: on a directory with a (unique) child file named `x` with payload `p`,
inserting a second file named `x` without overwrite leaves the directory
unchanged (no-op, no error), while inserting with overwrite replaces the child
so that it holds the new payload; in both cases exactly one child file named
`x` remains (the filter result lists it together with its payload). -/
theorem c5_insert_overwrite (d : Dir) (x : String) (p q : Option String) (i : Nat)
    (hidx : d.hasFileIdx x = some i)
    (hget : d.filesL[i]? = some ⟨x, p⟩)
    (hdup : (d.filesL.map File.name).Nodup) :
    (d.addFile ⟨x, q⟩ false).1 = d ∧
    d.filesL.filter (fun f => f.name = x) = [⟨x, p⟩] ∧
    (d.addFile ⟨x, q⟩ true).1.filesL = d.filesL.set i ⟨x, q⟩ ∧
    (d.addFile ⟨x, q⟩ true).1.filesL.filter (fun f => f.name = x) = [⟨x, q⟩] := by
  cases d with
  | mk n sf sd =>
    simp only [Dir.hasFileIdx, Dir.filesL, Dir.subFiles] at hidx hget hdup ⊢
    cases sf with
    | none => simp [findNamedIdx] at hidx
    | some l =>
      simp only [Option.getD_some] at hidx hget hdup ⊢
      obtain ⟨l₁, a, l₂, hl, hlen, hname, hfresh⟩ := findNamedIdx_decomp _ _ _ _ hidx
      subst hl
      have hgo : (l₁ ++ a :: l₂)[l₁.length]? = some a := by
        rw [List.getElem?_append_right (Nat.le_refl _)]
        simp
      rw [hlen] at hgo
      rw [hgo] at hget
      obtain rfl : a = ⟨x, p⟩ := by injection hget
      have hfresh₂ : ∀ b ∈ l₂, b.name ≠ x := by
        intro b hb hbx
        have : x ∈ l₂.map File.name := List.mem_map.2 ⟨b, hb, hbx⟩
        simp only [List.map_append, List.map_cons] at hdup
        have := (List.nodup_append.1 hdup).2.1
        simp only [List.nodup_cons] at this
        exact this.1 (by simpa [hname] using List.mem_map.2 ⟨b, hb, hbx⟩)
      have hfilter₁ : l₁.filter (fun f => f.name = x) = [] :=
        List.filter_eq_nil_iff.2 (by
          intro b hb
          simp only [decide_eq_true_eq]
          exact fun hbx => hfresh b hb (hbx.trans rfl))
      have hfilter₂ : l₂.filter (fun f => f.name = x) = [] :=
        List.filter_eq_nil_iff.2 (by
          intro b hb
          simp only [decide_eq_true_eq]
          exact hfresh₂ b hb)
      have hidx' : findNamedIdx File.name (l₁ ++ File.mk x p :: l₂) x = some i := hidx
      refine ⟨?_, ?_, ?_, ?_⟩
      · simp [Dir.addFile, hidx']
      · simp [List.filter_append, hfilter₁, hfilter₂, hname]
      · simp [Dir.addFile, hidx', Dir.filesL, Dir.subFiles]
      · simp [Dir.addFile, hidx', Dir.filesL, Dir.subFiles]
        rw [← hlen, set_at_append]
        simp [List.filter_append, hfilter₁, hfilter₂]

/-- C5 witness: the theorem applied to a directory holding a single file
`a.txt` with payload `p`, inserting payload `q`. -/
theorem c5_insert_overwrite_witness :
    ((Dir.mk "d" (some [⟨"a.txt", some "p"⟩]) none).addFile ⟨"a.txt", some "q"⟩ false).1 =
      Dir.mk "d" (some [⟨"a.txt", some "p"⟩]) none ∧
    (Dir.mk "d" (some [⟨"a.txt", some "p"⟩]) none).filesL.filter
      (fun f => f.name = "a.txt") = [⟨"a.txt", some "p"⟩] ∧
    ((Dir.mk "d" (some [⟨"a.txt", some "p"⟩]) none).addFile
      ⟨"a.txt", some "q"⟩ true).1.filesL =
      (Dir.mk "d" (some [⟨"a.txt", some "p"⟩]) none).filesL.set 0 ⟨"a.txt", some "q"⟩ ∧
    ((Dir.mk "d" (some [⟨"a.txt", some "p"⟩]) none).addFile
      ⟨"a.txt", some "q"⟩ true).1.filesL.filter (fun f => f.name = "a.txt") =
      [⟨"a.txt", some "q"⟩] :=
  c5_insert_overwrite (Dir.mk "d" (some [⟨"a.txt", some "p"⟩]) none) "a.txt"
    (some "p") (some "q") 0 (by decide) (by decide) (by decide)

theorem file_size_releaseData (f : File) : (File.releaseData f).size = 0 := rfl

theorem release_map_size_zero (fl : List File) :
    (List.map (File.size ∘ File.releaseData) fl).sum = 0 := by
  refine List.sum_eq_zero ?_
  intro y hy
  simp only [List.mem_map] at hy
  obtain ⟨f, _, rfl⟩ := hy
  rfl

mutual
theorem release_size_zero (d : Dir) : d.releaseAllFilesData.size = 0 := by
  cases d with
  | mk n sf sd =>
    cases sd with
    | none =>
      cases sf with
      | none => simp [Dir.releaseAllFilesData, Dir.size]
      | some fl => simp [Dir.releaseAllFilesData, Dir.size, release_map_size_zero fl]
    | some l =>
      cases sf with
      | none => simp [Dir.releaseAllFilesData, Dir.size, release_sizeL_zero l]
      | some fl =>
        simp [Dir.releaseAllFilesData, Dir.size, release_map_size_zero fl,
          release_sizeL_zero l]

theorem release_sizeL_zero (l : List Dir) :
    Dir.sizeL (Dir.releaseAllFilesDataL l) = 0 := by
  cases l with
  | nil => rfl
  | cons d ds =>
    simp only [Dir.releaseAllFilesDataL, Dir.sizeL]
    rw [release_size_zero d, release_sizeL_zero ds]
end

mutual
theorem release_shape (d : Dir) : d.releaseAllFilesData.shape = d.shape := by
  cases d with
  | mk n sf sd =>
    cases sd with
    | none =>
      simp only [Dir.releaseAllFilesData, Dir.shape]
      cases sf <;> simp [File.releaseData, File.name]
    | some l =>
      simp only [Dir.releaseAllFilesData, Dir.shape]
      rw [release_shapeL l]
      cases sf <;> simp [File.releaseData, File.name]

theorem release_shapeL (l : List Dir) :
    Dir.shapeL (Dir.releaseAllFilesDataL l) = Dir.shapeL l := by
  cases l with
  | nil => rfl
  | cons d ds =>
    simp only [Dir.releaseAllFilesDataL, Dir.shapeL]
    rw [release_shape d, release_shapeL ds]
end

mutual
theorem release_idem (d : Dir) :
    d.releaseAllFilesData.releaseAllFilesData = d.releaseAllFilesData := by
  cases d with
  | mk n sf sd =>
    cases sd with
    | none =>
      simp only [Dir.releaseAllFilesData]
      cases sf <;> simp [File.releaseData]
    | some l =>
      simp only [Dir.releaseAllFilesData]
      rw [release_idemL l]
      cases sf <;> simp [File.releaseData]

theorem release_idemL (l : List Dir) :
    Dir.releaseAllFilesDataL (Dir.releaseAllFilesDataL l) = Dir.releaseAllFilesDataL l := by
  cases l with
  | nil => rfl
  | cons d ds =>
    simp only [Dir.releaseAllFilesDataL]
    rw [release_idem d, release_idemL ds]
end

mutual
theorem release_allNodes_size (d : Dir) :
    ∀ sub ∈ d.releaseAllFilesData.allNodes, sub.size = 0 := by
  cases d with
  | mk n sf sd =>
    intro sub hsub
    cases sd with
    | none =>
      simp only [Dir.releaseAllFilesData, Dir.allNodes] at hsub
      simp only [List.mem_singleton] at hsub
      subst hsub
      have := release_size_zero (Dir.mk n sf none)
      simpa [Dir.releaseAllFilesData] using this
    | some l =>
      simp only [Dir.releaseAllFilesData, Dir.allNodes, List.mem_cons] at hsub
      rcases hsub with rfl | hsub
      · have := release_size_zero (Dir.mk n sf (some l))
        simpa [Dir.releaseAllFilesData] using this
      · exact release_allNodesL_size l sub hsub

theorem release_allNodesL_size (l : List Dir) :
    ∀ sub ∈ Dir.allNodesL (Dir.releaseAllFilesDataL l), sub.size = 0 := by
  cases l with
  | nil => intro sub h; simp [Dir.releaseAllFilesDataL, Dir.allNodesL] at h
  | cons d ds =>
    intro sub hsub
    simp only [Dir.releaseAllFilesDataL, Dir.allNodesL, List.mem_append] at hsub
    rcases hsub with h | h
    · exact release_allNodes_size d sub h
    · exact release_allNodesL_size ds sub h
end

/-- C7: releaseAllPayloads removes no node and changes no name (the shape —
names at every level — is preserved); afterwards size() is 0 for every node of
the subtree; and the operation is idempotent. -/
theorem c7_release_payloads (d : Dir) :
    d.releaseAllFilesData.shape = d.shape ∧
    (∀ sub ∈ d.releaseAllFilesData.allNodes, sub.size = 0) ∧
    d.releaseAllFilesData.releaseAllFilesData = d.releaseAllFilesData :=
  ⟨release_shape d, release_allNodes_size d, release_idem d⟩

/-- C7 witness: the theorem applied to the sample tree. -/
theorem c7_release_payloads_witness :
    sampleTree.releaseAllFilesData.shape = sampleTree.shape ∧
    sampleTree.releaseAllFilesData.releaseAllFilesData =
      sampleTree.releaseAllFilesData ∧
    sampleTree.releaseAllFilesData.size = 0 :=
  ⟨(c7_release_payloads sampleTree).1, (c7_release_payloads sampleTree).2.2,
    (c7_release_payloads sampleTree).2.1 sampleTree.releaseAllFilesData (by
      simp [sampleTree, Dir.releaseAllFilesData, Dir.releaseAllFilesDataL,
        Dir.allNodes, List.map, File.releaseData])⟩

theorem writeFilesL_trace (fs : List File) (root : Path) (isOverwrite : Bool)
    (disk disk2 : Entry) (evs : List Ev)
    (h : Dir.writeFilesL fs root isOverwrite disk = .ok (disk2, evs)) :
    evs = fs.map (fun f => Ev.fwrite root f.name isOverwrite) := by
  induction fs generalizing disk disk2 evs with
  | nil =>
    simp only [Dir.writeFilesL, Except.ok.injEq, Prod.mk.injEq] at h
    simp [← h.2]
  | cons f rest ih =>
    simp only [Dir.writeFilesL] at h
    split at h
    · exact absurd h (by simp)
    · split at h
      · exact absurd h (by simp)
      · rename_i disk1 heq1 pr diskr evr heq2
        simp only [Except.ok.injEq, Prod.mk.injEq] at h
        rw [← h.2, ih _ _ _ heq2]
        simp

mutual
theorem write_trace (d : Dir) (path : Path) (isOverwrite : Bool) (disk disk' : Entry)
    (evs : List Ev) (hw : d.write path isOverwrite disk = .ok (disk', evs)) :
    evs = d.expectedTrace path isOverwrite := by
  cases d with
  | mk n sf sd =>
    cases sd with
    | none =>
      simp only [Dir.write] at hw
      split at hw
      · exact absurd hw (by simp)
      · split at hw
        · exact absurd hw (by simp)
        · rename_i disk1 heq1 pr disk2 evf heq2
          have hevf := writeFilesL_trace _ _ _ _ _ _ heq2
          simp only [Except.ok.injEq, Prod.mk.injEq] at hw
          rw [← hw.2, hevf]
          simp [Dir.expectedTrace]
    | some l =>
      simp only [Dir.write] at hw
      split at hw
      · exact absurd hw (by simp)
      · split at hw
        · exact absurd hw (by simp)
        · rename_i disk1 heq1 pr disk2 evf heq2
          have hevf := writeFilesL_trace _ _ _ _ _ _ heq2
          split at hw
          · exact absurd hw (by simp)
          · rename_i pr2 disk3 evd heq3
            simp only [Except.ok.injEq, Prod.mk.injEq] at hw
            rw [← hw.2, hevf, writeL_trace l (path ++ [n]) isOverwrite disk2 disk3 evd heq3]
            simp [Dir.expectedTrace]

theorem writeL_trace (l : List Dir) (path : Path) (isOverwrite : Bool) (disk disk' : Entry)
    (evs : List Ev) (hw : Dir.writeL l path isOverwrite disk = .ok (disk', evs)) :
    evs = Dir.expectedTraceL l path isOverwrite := by
  cases l with
  | nil =>
    simp only [Dir.writeL, Except.ok.injEq, Prod.mk.injEq] at hw
    rw [← hw.2]
    rfl
  | cons d ds =>
    simp only [Dir.writeL] at hw
    split at hw
    · exact absurd hw (by simp)
    · split at hw
      · exact absurd hw (by simp)
      · rename_i pr disk1 ev1 heq1 pr2 disk2 ev2 heq2
        simp only [Except.ok.injEq, Prod.mk.injEq] at hw
        rw [← hw.2, write_trace d path isOverwrite disk disk1 ev1 heq1,
          writeL_trace ds path isOverwrite disk1 disk2 ev2 heq2]
        rfl
end

theorem expectedTraceL_flatten (l : List Dir) (path : Path) (isOverwrite : Bool) :
    Dir.expectedTraceL l path isOverwrite =
      (l.map (fun c => c.expectedTrace path isOverwrite)).flatten := by
  induction l with
  | nil => rfl
  | cons d ds ih => simp [Dir.expectedTraceL, ih]

theorem expectedTrace_closed_form (d : Dir) (path : Path) (isOverwrite : Bool) :
    d.expectedTrace path isOverwrite =
      Ev.dcall path d.name isOverwrite :: Ev.mkdir path d.name ::
        (d.filesL.map (fun f => Ev.fwrite (path ++ [d.name]) f.name isOverwrite) ++
          (d.dirsL.map (fun c => c.expectedTrace (path ++ [d.name]) isOverwrite)).flatten) := by
  cases d with
  | mk n sf sd =>
    cases sd with
    | none =>
      simp [Dir.expectedTrace, Dir.name, Dir.filesL, Dir.dirsL, Dir.subFiles, Dir.subDirs]
    | some l =>
      simp [Dir.expectedTrace, Dir.name, Dir.filesL, Dir.dirsL, Dir.subFiles, Dir.subDirs,
        expectedTraceL_flatten]

/-- C8: a successful Dir::write first creates the directory `path/name` —
raising no error when that directory already exists — and its event trace is
exactly: the createDirectory call, then one File::write call per child file in
collection order, then the full recursive trace of each child directory in
collection order, with the same overwrite flag passed to every child file
write and every recursive directory write. -/
theorem c8_write_order (d : Dir) (path : Path) (isOverwrite : Bool) (disk disk' : Entry)
    (evs : List Ev) (hw : d.write path isOverwrite disk = .ok (disk', evs)) :
    evs = Ev.dcall path d.name isOverwrite :: Ev.mkdir path d.name ::
      (d.filesL.map (fun f => Ev.fwrite (path ++ [d.name]) f.name isOverwrite) ++
        (d.dirsL.map (fun c => c.expectedTrace (path ++ [d.name]) isOverwrite)).flatten) ∧
    (∀ ces, disk.lookup (path ++ [d.name]) = some (.dir ces) →
      fsCreateDirectory disk path d.name = .ok disk) := by
  constructor
  · rw [write_trace d path isOverwrite disk disk' evs hw]
    exact expectedTrace_closed_form d path isOverwrite
  · intro ces hces
    simp [fsCreateDirectory, hces]

/-- C8 witness: the theorem applied to the sample tree written at the root of
an empty disk. -/
theorem c8_write_order_witness :
    ([Ev.dcall [] "proj" true, Ev.mkdir [] "proj",
      Ev.fwrite ["proj"] "a.txt" true, Ev.fwrite ["proj"] "c.txt" true,
      Ev.dcall ["proj"] "src" true, Ev.mkdir ["proj"] "src",
      Ev.fwrite ["proj", "src"] "b.txt" true] : List Ev) =
      Ev.dcall [] sampleTree.name true :: Ev.mkdir [] sampleTree.name ::
        (sampleTree.filesL.map
          (fun f => Ev.fwrite ([] ++ [sampleTree.name]) f.name true) ++
          (sampleTree.dirsL.map
            (fun c => c.expectedTrace ([] ++ [sampleTree.name]) true)).flatten) ∧
    (∀ ces, (Entry.dir []).lookup ([] ++ [sampleTree.name]) = some (.dir ces) →
      fsCreateDirectory (Entry.dir []) [] sampleTree.name = .ok (Entry.dir [])) :=
  c8_write_order sampleTree [] true (Entry.dir [])
    (Entry.dir [("proj", Entry.dir
      [("a.txt", Entry.file "hi"), ("c.txt", Entry.file "yo"),
       ("src", Entry.dir [("b.txt", Entry.file "bye")])])])
    [Ev.dcall [] "proj" true, Ev.mkdir [] "proj",
      Ev.fwrite ["proj"] "a.txt" true, Ev.fwrite ["proj"] "c.txt" true,
      Ev.dcall ["proj"] "src" true, Ev.mkdir ["proj"] "src",
      Ev.fwrite ["proj", "src"] "b.txt" true] rfl

/-- C10: self-assignment is not payload-preserving.  File::operator= releases
this->data_ before reading other.data_, so `f = f` leaves the node
payload-less (data() = "" and size() = 0); Dir::operator= calls clear() before
reading other's collections, so `d = d` leaves the node with no child files
and no child directories. -/
theorem c10_self_assignment (f : File) (d : Dir) :
    (File.assignOp f f true).name = f.name ∧
    (File.assignOp f f true).data = none ∧
    (File.assignOp f f true).dataStr = "" ∧
    (File.assignOp f f true).size = 0 ∧
    (Dir.assignOp d d true).name = d.name ∧
    (Dir.assignOp d d true).subFiles = none ∧
    (Dir.assignOp d d true).subDirs = none := by
  refine ⟨rfl, rfl, rfl, rfl, ?_, ?_, ?_⟩ <;> cases d <;> rfl

/-! ### Entry-tree lemmas for the round-trip proof -/

theorem findEntry_append (es1 es2 : List (String × Entry)) (n : String) :
    findEntry (es1 ++ es2) n =
      (match findEntry es1 n with
       | some e => some e
       | none => findEntry es2 n) := by
  induction es1 with
  | nil => rfl
  | cons p es ih =>
    obtain ⟨m, e⟩ := p
    by_cases hm : m = n
    · simp [findEntry, hm]
    · simp [findEntry, hm, ih]

theorem findEntry_replaceEntry_self (es : List (String × Entry)) (n : String)
    (c e' : Entry) (h : findEntry es n = some c) :
    findEntry (replaceEntry es n e') n = some e' := by
  induction es with
  | nil => simp [findEntry] at h
  | cons p es ih =>
    obtain ⟨m, e⟩ := p
    by_cases hm : m = n
    · simp [findEntry, replaceEntry, hm]
    · simp only [findEntry, replaceEntry, hm, if_false] at h ⊢
      exact ih h

theorem replaceEntry_replaceEntry (es : List (String × Entry)) (n : String) (a b : Entry) :
    replaceEntry (replaceEntry es n a) n b = replaceEntry es n b := by
  induction es with
  | nil => rfl
  | cons p es ih =>
    obtain ⟨m, e⟩ := p
    by_cases hm : m = n
    · simp [replaceEntry, hm]
    · simp [replaceEntry, hm, ih]

theorem replaceEntry_self (es : List (String × Entry)) (n : String) (c : Entry)
    (h : findEntry es n = some c) : replaceEntry es n c = es := by
  induction es with
  | nil => rfl
  | cons p es ih =>
    obtain ⟨m, e⟩ := p
    by_cases hm : m = n
    · simp only [findEntry, hm, if_true, Option.some.injEq] at h
      simp [replaceEntry, hm, h]
    · simp only [findEntry, hm, if_false] at h
      simp [replaceEntry, hm, ih h]

theorem replaceEntry_append_fresh (es es2 : List (String × Entry)) (n : String)
    (e e' : Entry) (h : findEntry es n = none) :
    replaceEntry (es ++ (n, e) :: es2) n e' = es ++ (n, e') :: es2 := by
  induction es with
  | nil => simp [replaceEntry]
  | cons p t ih =>
    obtain ⟨m, c⟩ := p
    by_cases hm : m = n
    · simp [findEntry, hm] at h
    · simp only [findEntry, hm, if_false] at h
      simp [replaceEntry, hm, ih h]

theorem lookup_snoc (e : Entry) (p : Path) (n : String) :
    e.lookup (p ++ [n]) =
      (match e.lookup p with
       | some (.dir es) => findEntry es n
       | _ => none) := by
  induction p generalizing e with
  | nil =>
    cases e with
    | file c => simp [Entry.lookup]
    | dir es =>
      simp only [List.nil_append, Entry.lookup]
      cases findEntry es n <;> simp [Entry.lookup]
  | cons m q ih =>
    cases e with
    | file c => simp [Entry.lookup]
    | dir es =>
      simp only [List.cons_append, Entry.lookup]
      cases findEntry es m with
      | none => simp
      | some c => exact ih c

theorem modifyAt_isSome (f : List (String × Entry) → List (String × Entry))
    (e : Entry) (p : Path) (es : List (String × Entry))
    (h : e.lookup p = some (.dir es)) : ∃ e', e.modifyAt f p = some e' := by
  induction p generalizing e with
  | nil =>
    cases e with
    | file c => simp [Entry.lookup] at h
    | dir es0 => exact ⟨.dir (f es0), rfl⟩
  | cons m q ih =>
    cases e with
    | file c => simp [Entry.lookup] at h
    | dir es0 =>
      simp only [Entry.lookup] at h
      cases hfe : findEntry es0 m with
      | none => simp [hfe] at h
      | some c =>
        simp only [hfe] at h
        obtain ⟨c', hc'⟩ := ih c h
        exact ⟨.dir (replaceEntry es0 m c'), by simp [Entry.modifyAt, hfe, hc']⟩

theorem lookup_modifyAt_self (f : List (String × Entry) → List (String × Entry))
    (e e' : Entry) (p : Path) (es : List (String × Entry))
    (hm : e.modifyAt f p = some e') (h : e.lookup p = some (.dir es)) :
    e'.lookup p = some (.dir (f es)) := by
  induction p generalizing e e' with
  | nil =>
    cases e with
    | file c => simp [Entry.lookup] at h
    | dir es0 =>
      simp only [Entry.lookup, Option.some.injEq] at h
      obtain rfl : es0 = es := by injection h
      simp only [Entry.modifyAt, Option.some.injEq] at hm
      rw [← hm]
      rfl
  | cons m q ih =>
    cases e with
    | file c => simp [Entry.lookup] at h
    | dir es0 =>
      simp only [Entry.lookup] at h
      simp only [Entry.modifyAt] at hm
      cases hfe : findEntry es0 m with
      | none => simp [hfe] at h
      | some c =>
        simp only [hfe] at h hm
        cases hcm : c.modifyAt f q with
        | none => simp [hcm] at hm
        | some c' =>
          simp only [hcm, Option.some.injEq] at hm
          rw [← hm]
          simp only [Entry.lookup, findEntry_replaceEntry_self es0 m c c' hfe]
          exact ih c c' hcm h

theorem modifyAt_comp (f g : List (String × Entry) → List (String × Entry))
    (e e1 e2 : Entry) (p : Path)
    (h1 : e.modifyAt f p = some e1) (h2 : e1.modifyAt g p = some e2) :
    e.modifyAt (fun es => g (f es)) p = some e2 := by
  induction p generalizing e e1 e2 with
  | nil =>
    cases e with
    | file c => simp [Entry.modifyAt] at h1
    | dir es0 =>
      simp only [Entry.modifyAt, Option.some.injEq] at h1
      rw [← h1] at h2
      simp only [Entry.modifyAt, Option.some.injEq] at h2
      rw [← h2]
      rfl
  | cons m q ih =>
    cases e with
    | file c => simp [Entry.modifyAt] at h1
    | dir es0 =>
      simp only [Entry.modifyAt] at h1
      cases hfe : findEntry es0 m with
      | none => simp [hfe] at h1
      | some c =>
        simp only [hfe] at h1
        cases hcm : c.modifyAt f q with
        | none => simp [hcm] at h1
        | some c1 =>
          simp only [hcm, Option.some.injEq] at h1
          rw [← h1] at h2
          simp only [Entry.modifyAt, findEntry_replaceEntry_self es0 m c c1 hfe] at h2
          cases hcm2 : c1.modifyAt g q with
          | none => simp [hcm2] at h2
          | some c2 =>
            simp only [hcm2, Option.some.injEq] at h2
            rw [← h2]
            simp only [Entry.modifyAt, hfe, ih c c1 c2 hcm hcm2,
              replaceEntry_replaceEntry]

theorem modifyAt_congr_at (f g : List (String × Entry) → List (String × Entry))
    (e e' : Entry) (p : Path) (es : List (String × Entry))
    (h : e.lookup p = some (.dir es)) (hm : e.modifyAt f p = some e')
    (hfg : f es = g es) : e.modifyAt g p = some e' := by
  induction p generalizing e e' with
  | nil =>
    cases e with
    | file c => simp [Entry.lookup] at h
    | dir es0 =>
      simp only [Entry.lookup, Option.some.injEq] at h
      obtain rfl : es0 = es := by injection h
      simp only [Entry.modifyAt, Option.some.injEq] at hm ⊢
      rw [← hfg]
      exact hm
  | cons m q ih =>
    cases e with
    | file c => simp [Entry.lookup] at h
    | dir es0 =>
      simp only [Entry.lookup] at h
      simp only [Entry.modifyAt] at hm ⊢
      cases hfe : findEntry es0 m with
      | none => simp [hfe] at h
      | some c =>
        simp only [hfe] at h hm ⊢
        cases hcm : c.modifyAt f q with
        | none => simp [hcm] at hm
        | some c' =>
          simp only [hcm] at hm
          rw [ih c c' h hcm]
          exact hm

theorem modifyAt_self_id (e : Entry) (p : Path) (es : List (String × Entry))
    (h : e.lookup p = some (.dir es)) : e.modifyAt (fun x => x) p = some e := by
  induction p generalizing e with
  | nil =>
    cases e with
    | file c => simp [Entry.lookup] at h
    | dir es0 => rfl
  | cons m q ih =>
    cases e with
    | file c => simp [Entry.lookup] at h
    | dir es0 =>
      simp only [Entry.lookup] at h
      cases hfe : findEntry es0 m with
      | none => simp [hfe] at h
      | some c =>
        simp only [hfe] at h
        simp only [Entry.modifyAt, hfe, ih c h, replaceEntry_self es0 m c hfe]

theorem modifyAt_snoc (g : List (String × Entry) → List (String × Entry))
    (e e' : Entry) (p : Path) (n : String) (ces : List (String × Entry))
    (h : e.lookup (p ++ [n]) = some (.dir ces))
    (hm : e.modifyAt g (p ++ [n]) = some e') :
    e.modifyAt (fun es => replaceEntry es n (.dir (g ces))) p = some e' := by
  induction p generalizing e e' with
  | nil =>
    cases e with
    | file c => simp [Entry.lookup] at h
    | dir es0 =>
      simp only [List.nil_append, Entry.lookup] at h
      simp only [List.nil_append, Entry.modifyAt] at hm
      cases hfe : findEntry es0 n with
      | none => simp [hfe] at h
      | some c =>
        simp only [hfe] at h hm
        cases c with
        | file cc => simp [Entry.lookup] at h
        | dir ces0 =>
          simp only [Entry.lookup, Option.some.injEq] at h
          obtain rfl : ces0 = ces := by injection h
          simp only [Entry.modifyAt, Option.some.injEq] at hm
          rw [← hm]
          rfl
  | cons m q ih =>
    cases e with
    | file c => simp [Entry.lookup] at h
    | dir es0 =>
      simp only [List.cons_append, List.append_eq, Entry.lookup] at h
      simp only [List.cons_append, List.append_eq, Entry.modifyAt] at hm
      cases hfe : findEntry es0 m with
      | none => simp [hfe] at h
      | some c =>
        simp only [hfe] at h hm
        cases hcm : c.modifyAt g (q ++ [n]) with
        | none => simp [hcm] at hm
        | some c' =>
          simp only [hcm, Option.some.injEq] at hm
          rw [← hm]
          simp only [Entry.modifyAt, hfe, ih c c' h hcm]

theorem modifyAt_congr (f g : List (String × Entry) → List (String × Entry))
    (hfg : ∀ es, f es = g es) (e : Entry) (p : Path) :
    e.modifyAt f p = e.modifyAt g p := by
  induction p generalizing e with
  | nil =>
    cases e with
    | file c => rfl
    | dir es0 => simp [Entry.modifyAt, hfg]
  | cons m q ih =>
    cases e with
    | file c => rfl
    | dir es0 =>
      cases hfe : findEntry es0 m with
      | none => simp [Entry.modifyAt, hfe]
      | some c => simp only [Entry.modifyAt, hfe, ih c]

/-! ### What a successful write leaves on disk -/

theorem findEntry_fileEntries (fl : List File) (m : String) (e : Entry)
    (h : findEntry (fl.map (fun f => (f.name, Entry.file f.dataStr))) m = some e) :
    ∃ content, e = .file content := by
  induction fl with
  | nil => simp [findEntry] at h
  | cons f rest ih =>
    simp only [List.map_cons, findEntry] at h
    by_cases hm : f.name = m
    · simp only [hm, if_true, Option.some.injEq] at h
      exact ⟨f.dataStr, h.symm⟩
    · simp only [hm, if_false] at h
      exact ih h

theorem WF_parts (n : String) (sf : Option (List File)) (sd : Option (List Dir))
    (h : Dir.WF (.mk n sf sd) = true) :
    isValidFilename n = true ∧
    ((sf.getD []).map File.name).Nodup ∧
    ((sd.getD []).map Dir.name).Nodup ∧
    Dir.WFL (sd.getD []) = true := by
  unfold Dir.WF at h
  simp only [namesDistinct, Bool.and_eq_true, decide_eq_true_eq] at h
  obtain ⟨⟨⟨⟨h1, h2⟩, h3⟩, h4⟩, h5⟩ := h
  refine ⟨h1, h3, h4, ?_⟩
  cases sd with
  | none => rfl
  | some l => exact h5

theorem WFL_parts (c : Dir) (l : List Dir) (h : Dir.WFL (c :: l) = true) :
    c.WF = true ∧ Dir.WFL l = true := by
  simp only [Dir.WFL, Bool.and_eq_true] at h
  exact h

theorem fileWrite_fresh (f : File) (p2 : Path) (isOverwrite : Bool) (disk : Entry)
    (es2 : List (String × Entry)) (hlk : disk.lookup p2 = some (.dir es2))
    (hfresh : findEntry es2 f.name = none) :
    ∃ disk1, f.write p2 isOverwrite disk = .ok disk1 ∧
      disk.modifyAt (fun es => es ++ [(f.name, Entry.file f.dataStr)]) p2 = some disk1 := by
  have htgt : disk.lookup (p2 ++ [f.name]) = none := by
    rw [lookup_snoc, hlk]
    exact hfresh
  obtain ⟨disk1, hmod⟩ := modifyAt_isSome
    (fun es => es ++ [(f.name, Entry.file f.dataStr)]) disk p2 es2 hlk
  refine ⟨disk1, ?_, hmod⟩
  simp [File.write, Entry.isFileAt, htgt, hmod]

theorem write_collision (c : Dir) (p2 : Path) (isOverwrite : Bool) (disk : Entry)
    (es2 : List (String × Entry)) (content : String)
    (hlk : disk.lookup p2 = some (.dir es2))
    (hcol : findEntry es2 c.name = some (.file content)) :
    c.write p2 isOverwrite disk = .error .ioError := by
  cases c with
  | mk n sf sd =>
    simp only [Dir.name] at hcol
    have htgt : disk.lookup (p2 ++ [n]) = some (.file content) := by
      rw [lookup_snoc, hlk]
      exact hcol
    have hcd : fsCreateDirectory disk p2 n = .error .ioError := by
      unfold fsCreateDirectory
      rw [htgt]
    unfold Dir.write
    rw [hcd]

theorem writeFiles_fresh (fs : List File) (p2 : Path) (isOverwrite : Bool) (disk : Entry)
    (es2 : List (String × Entry)) (hlk : disk.lookup p2 = some (.dir es2))
    (hfresh : ∀ f ∈ fs, findEntry es2 f.name = none)
    (hdup : (fs.map File.name).Nodup) :
    ∃ disk2 evs, Dir.writeFilesL fs p2 isOverwrite disk = .ok (disk2, evs) ∧
      disk.modifyAt (fun es => es ++ fs.map (fun f => (f.name, Entry.file f.dataStr))) p2
        = some disk2 := by
  induction fs generalizing disk es2 with
  | nil =>
    refine ⟨disk, [], rfl, ?_⟩
    exact modifyAt_congr_at _ _ disk disk p2 es2 hlk
      (modifyAt_self_id disk p2 es2 hlk) (by simp)
  | cons f rest ih =>
    obtain ⟨disk1, hok1, hmod1⟩ :=
      fileWrite_fresh f p2 isOverwrite disk es2 hlk (hfresh f (by simp))
    have hlk1 : disk1.lookup p2 = some (.dir (es2 ++ [(f.name, Entry.file f.dataStr)])) :=
      lookup_modifyAt_self _ disk disk1 p2 es2 hmod1 hlk
    have hne : ∀ g ∈ rest, f.name ≠ g.name := by
      intro g hg
      simp only [List.map_cons, List.nodup_cons] at hdup
      intro heq
      exact hdup.1 (hdup.1 (by rw [heq]; exact List.mem_map.2 ⟨g, hg, rfl⟩)).elim
    have hfr1 : ∀ g ∈ rest,
        findEntry (es2 ++ [(f.name, Entry.file f.dataStr)]) g.name = none := by
      intro g hg
      rw [findEntry_append]
      simp [hfresh g (by simp [hg]), findEntry, hne g hg]
    have hdup1 : (rest.map File.name).Nodup := by
      simp only [List.map_cons, List.nodup_cons] at hdup
      exact hdup.2
    obtain ⟨disk2, evs2, hok2, hmod2⟩ := ih disk1 _ hlk1 hfr1 hdup1
    refine ⟨disk2, Ev.fwrite p2 f.name isOverwrite :: evs2, ?_, ?_⟩
    · simp [Dir.writeFilesL, hok1, hok2]
    · have hcomp := modifyAt_comp _ _ disk disk1 disk2 p2 hmod1 hmod2
      rw [modifyAt_congr _
        (fun es => es ++ (f :: rest).map (fun g => (g.name, Entry.file g.dataStr)))
        (by intro es; simp) disk p2] at hcomp
      exact hcomp

mutual
theorem write_disk_spec (d : Dir) (path : Path) (isOverwrite : Bool) (disk disk' : Entry)
    (es : List (String × Entry)) (evs : List Ev)
    (hwf : d.WF = true)
    (hlk : disk.lookup path = some (.dir es))
    (hfresh : findEntry es d.name = none)
    (hw : d.write path isOverwrite disk = .ok (disk', evs)) :
    disk.modifyAt (fun es0 => es0 ++ [(d.name, d.mat)]) path = some disk' := by
  cases d with
  | mk n sf sd =>
    obtain ⟨hvn, hfdup, hddup, hwfl⟩ := WF_parts n sf sd hwf
    simp only [Dir.name] at hfresh ⊢
    have htgt : disk.lookup (path ++ [n]) = none := by
      rw [lookup_snoc, hlk]
      exact hfresh
    obtain ⟨disk1, hmod1⟩ := modifyAt_isSome
      (fun es0 => es0 ++ [(n, Entry.dir [])]) disk path es hlk
    have hcd : fsCreateDirectory disk path n = .ok disk1 := by
      unfold fsCreateDirectory
      rw [htgt, hmod1]
    have hlk1 : disk1.lookup path = some (.dir (es ++ [(n, Entry.dir [])])) :=
      lookup_modifyAt_self _ disk disk1 path es hmod1 hlk
    have hlkRoot : disk1.lookup (path ++ [n]) = some (.dir []) := by
      rw [lookup_snoc, hlk1]
      show findEntry (es ++ [(n, Entry.dir [])]) n = some (.dir [])
      rw [findEntry_append, hfresh]
      simp [findEntry]
    obtain ⟨disk2, evf, hokF, hmodF⟩ :=
      writeFiles_fresh (sf.getD []) (path ++ [n]) isOverwrite disk1 [] hlkRoot
        (by intro f hf; rfl) hfdup
    have hlk2 : disk2.lookup (path ++ [n]) =
        some (.dir ((sf.getD []).map (fun f => (f.name, Entry.file f.dataStr)))) := by
      have h0 := lookup_modifyAt_self _ disk1 disk2 (path ++ [n]) [] hmodF hlkRoot
      simpa using h0
    unfold Dir.write at hw
    rw [hcd] at hw
    simp only at hw
    rw [hokF] at hw
    simp only at hw
    cases sd with
    | none =>
      simp only [Except.ok.injEq, Prod.mk.injEq] at hw
      obtain ⟨hd2, _⟩ := hw
      have hup := modifyAt_snoc _ disk1 disk2 path n [] hlkRoot hmodF
      have hcomp := modifyAt_comp _ _ disk disk1 disk2 path hmod1 hup
      have hfinal := modifyAt_congr_at _
        (fun es0 => es0 ++ [(n, Dir.mat (.mk n sf none))]) disk disk2 path es hlk hcomp
        (by
          rw [replaceEntry_append_fresh es [] n _ _ hfresh]
          have : Entry.dir ([] ++ (sf.getD []).map (fun f => (f.name, Entry.file f.dataStr)))
              = Dir.mat (.mk n sf none) := by
            simp [Dir.mat]
          rw [this])
      rw [← hd2]
      exact hfinal
    | some l =>
      simp only at hw
      cases heqD : Dir.writeL l (path ++ [n]) isOverwrite disk2 with
      | error e => rw [heqD] at hw; simp at hw
      | ok pr =>
        obtain ⟨disk3, evd⟩ := pr
        rw [heqD] at hw
        simp only [Except.ok.injEq, Prod.mk.injEq] at hw
        obtain ⟨hd3, _⟩ := hw
        have hnodirF : ∀ c ∈ l, ∀ ces,
            findEntry ((sf.getD []).map (fun f => (f.name, Entry.file f.dataStr))) c.name
              ≠ some (.dir ces) := by
          intro c hc ces hcontra
          obtain ⟨content, hcontent⟩ := findEntry_fileEntries _ _ _ hcontra
          simp at hcontent
        have hmodD := writeL_disk_spec l (path ++ [n]) isOverwrite disk2 disk3 _ evd
          (by simpa using hwfl) (by simpa using hddup) hnodirF hlk2 heqD
        have hcompRoot := modifyAt_comp _ _ disk1 disk2 disk3 (path ++ [n]) hmodF hmodD
        have hup := modifyAt_snoc _ disk1 disk3 path n [] hlkRoot hcompRoot
        have hcomp := modifyAt_comp _ _ disk disk1 disk3 path hmod1 hup
        have hfinal := modifyAt_congr_at _
          (fun es0 => es0 ++ [(n, Dir.mat (.mk n sf (some l)))]) disk disk3 path es hlk hcomp
          (by
            rw [replaceEntry_append_fresh es [] n _ _ hfresh]
            have : Entry.dir
                (([] ++ (sf.getD []).map (fun f => (f.name, Entry.file f.dataStr))) ++
                  Dir.matL l)
                = Dir.mat (.mk n sf (some l)) := by
              simp [Dir.mat]
            rw [this])
        rw [← hd3]
        exact hfinal

theorem writeL_disk_spec (l : List Dir) (p2 : Path) (isOverwrite : Bool)
    (disk disk' : Entry) (es2 : List (String × Entry)) (evs : List Ev)
    (hwfl : Dir.WFL l = true)
    (hdup : (l.map Dir.name).Nodup)
    (hnodir : ∀ c ∈ l, ∀ ces, findEntry es2 c.name ≠ some (.dir ces))
    (hlk : disk.lookup p2 = some (.dir es2))
    (hw : Dir.writeL l p2 isOverwrite disk = .ok (disk', evs)) :
    disk.modifyAt (fun es0 => es0 ++ Dir.matL l) p2 = some disk' := by
  cases l with
  | nil =>
    simp only [Dir.writeL, Except.ok.injEq, Prod.mk.injEq] at hw
    obtain ⟨hd, _⟩ := hw
    rw [← hd]
    exact modifyAt_congr_at _ _ disk disk p2 es2 hlk
      (modifyAt_self_id disk p2 es2 hlk) (by simp [Dir.matL])
  | cons c cs =>
    obtain ⟨hwfc, hwfcs⟩ := WFL_parts c cs hwfl
    simp only [List.map_cons, List.nodup_cons] at hdup
    unfold Dir.writeL at hw
    cases heq1 : c.write p2 isOverwrite disk with
    | error e => rw [heq1] at hw; simp at hw
    | ok pr =>
      obtain ⟨disk1, ev1⟩ := pr
      rw [heq1] at hw
      simp only at hw
      cases heq2 : Dir.writeL cs p2 isOverwrite disk1 with
      | error e => rw [heq2] at hw; simp at hw
      | ok pr2 =>
        obtain ⟨disk2, ev2⟩ := pr2
        rw [heq2] at hw
        simp only [Except.ok.injEq, Prod.mk.injEq] at hw
        obtain ⟨hd2, _⟩ := hw
        cases hfe : findEntry es2 c.name with
        | some e =>
          cases e with
          | dir ces => exact absurd hfe (hnodir c (by simp) ces)
          | file content =>
            rw [write_collision c p2 isOverwrite disk es2 content hlk hfe] at heq1
            exact absurd heq1 (by simp)
        | none =>
          have hmodC := write_disk_spec c p2 isOverwrite disk disk1 es2 ev1 hwfc hlk hfe heq1
          have hlk1 : disk1.lookup p2 = some (.dir (es2 ++ [(c.name, c.mat)])) :=
            lookup_modifyAt_self _ disk disk1 p2 es2 hmodC hlk
          have hnodir1 : ∀ c' ∈ cs, ∀ ces,
              findEntry (es2 ++ [(c.name, c.mat)]) c'.name ≠ some (.dir ces) := by
            intro c' hc' ces hcontra
            rw [findEntry_append] at hcontra
            cases hfe2 : findEntry es2 c'.name with
            | some e2 =>
              rw [hfe2] at hcontra
              simp only [Option.some.injEq] at hcontra
              exact hnodir c' (by simp [hc']) ces (by rw [hfe2, hcontra])
            | none =>
              rw [hfe2] at hcontra
              have hne : c.name ≠ c'.name := by
                intro heq
                exact hdup.1 (by rw [heq]; exact List.mem_map.2 ⟨c', hc', rfl⟩)
              simp [findEntry, hne] at hcontra
          have hmodCS := writeL_disk_spec cs p2 isOverwrite disk1 disk2
            (es2 ++ [(c.name, c.mat)]) ev2 hwfcs hdup.2 hnodir1 hlk1 heq2
          have hcomp := modifyAt_comp _ _ disk disk1 disk2 p2 hmodC hmodCS
          rw [modifyAt_congr _ (fun es0 => es0 ++ Dir.matL (c :: cs))
            (by intro es0; simp [Dir.matL]) disk p2] at hcomp
          rw [← hd2]
          exact hcomp
end

/-! ### Reloading a materialized tree -/

theorem mat_isDir (c : Dir) : ∃ ces, c.mat = .dir ces := by
  cases c with
  | mk n sf sd => cases sd <;> exact ⟨_, rfl⟩

theorem SameShape_name (a b : Dir) (h : a.SameShape b) : a.name = b.name := by
  cases a with
  | mk n sf sd =>
    unfold Dir.SameShape at h
    exact h.1

theorem findNamedIdx_append_none {α : Type} (getName : α → String) (A B : List α)
    (n : String) (hA : findNamedIdx getName A n = none)
    (hB : findNamedIdx getName B n = none) :
    findNamedIdx getName (A ++ B) n = none := by
  induction A with
  | nil => simpa using hB
  | cons a t ih =>
    simp only [findNamedIdx] at hA ⊢
    by_cases ha : getName a = n
    · simp [ha] at hA
    · simp only [ha, if_false] at hA ⊢
      cases hr : findNamedIdx getName t n with
      | some j => rw [hr] at hA; simp at hA
      | none =>
        rw [show t.append B = t ++ B from rfl, ih hr]
        rfl

theorem addDir_append (root c : Dir) (hfresh : root.hasDirIdx c.name = none) :
    (root.addDir c false).1 = .mk root.name root.subFiles (some (root.dirsL ++ [c])) := by
  cases root with
  | mk n sf sd =>
    simp only [Dir.hasDirIdx, Dir.dirsL, Dir.subDirs] at hfresh
    simp only [Dir.addDir, hfresh]
    rfl

theorem addFile_append (root : Dir) (f : File) (hfresh : root.hasFileIdx f.name = none) :
    (root.addFile f false).1 = .mk root.name (some (root.filesL ++ [f])) root.subDirs := by
  cases root with
  | mk n sf sd =>
    simp only [Dir.hasFileIdx, Dir.filesL, Dir.subFiles] at hfresh
    simp only [Dir.addFile, hfresh]
    rfl

theorem fromEntriesD_skip_files (fl : List File) (rest : List (String × Entry)) (root : Dir) :
    Dir.fromEntriesD root (fl.map (fun f => (f.name, Entry.file f.dataStr)) ++ rest) =
      Dir.fromEntriesD root rest := by
  induction fl with
  | nil => rfl
  | cons f t ih => simpa [Dir.fromEntriesD] using ih

theorem fromEntriesF_append (A B : List (String × Entry)) (root : Dir) :
    Dir.fromEntriesF root (A ++ B) = Dir.fromEntriesF (Dir.fromEntriesF root A) B := by
  induction A generalizing root with
  | nil => rfl
  | cons p t ih =>
    obtain ⟨m, e⟩ := p
    cases e with
    | file c => simpa [Dir.fromEntriesF] using ih _
    | dir ces => simpa [Dir.fromEntriesF] using ih root

theorem fromEntriesF_skip_dirs (l : List Dir) (root : Dir) :
    Dir.fromEntriesF root (Dir.matL l) = root := by
  induction l with
  | nil => rfl
  | cons c cs ih =>
    obtain ⟨ces, hces⟩ := mat_isDir c
    simp only [Dir.matL, hces, Dir.fromEntriesF]
    exact ih

theorem payloads_map_id (fl : List File) (hpay : ∀ f ∈ fl, f.data.isSome = true) :
    fl.map (fun f => File.mk f.name (some f.dataStr)) = fl := by
  induction fl with
  | nil => rfl
  | cons f t ih =>
    have hf := hpay f (by simp)
    obtain ⟨p, hp⟩ := Option.isSome_iff_exists.1 hf
    have hid : File.mk f.name (some f.dataStr) = f := by
      cases f with
      | mk nm dt =>
        simp only at hp
        subst hp
        rfl
    rw [List.map_cons, hid, ih (fun g hg => hpay g (by simp [hg]))]

theorem fromEntriesF_files (fl : List File) (root : Dir)
    (hfresh : ∀ f ∈ fl, root.hasFileIdx f.name = none)
    (hdup : (fl.map File.name).Nodup) :
    (Dir.fromEntriesF root (fl.map (fun f => (f.name, Entry.file f.dataStr)))).name =
        root.name ∧
    (Dir.fromEntriesF root (fl.map (fun f => (f.name, Entry.file f.dataStr)))).subDirs =
        root.subDirs ∧
    (Dir.fromEntriesF root (fl.map (fun f => (f.name, Entry.file f.dataStr)))).filesL =
        root.filesL ++ fl.map (fun f => File.mk f.name (some f.dataStr)) := by
  induction fl generalizing root with
  | nil => exact ⟨rfl, rfl, by simp [Dir.fromEntriesF]⟩
  | cons f t ih =>
    simp only [List.map_cons, Dir.fromEntriesF]
    have hadd := addFile_append root (File.mk f.name (some f.dataStr))
      (by simpa using hfresh f (by simp))
    rw [hadd]
    have hfr1 : ∀ g ∈ t,
        Dir.hasFileIdx (.mk root.name (some (root.filesL ++ [File.mk f.name (some f.dataStr)]))
          root.subDirs) g.name = none := by
      intro g hg
      simp only [Dir.hasFileIdx, Dir.filesL, Dir.subFiles, Option.getD_some]
      refine findNamedIdx_append_none _ _ _ _ ?_ ?_
      · simpa [Dir.hasFileIdx] using hfresh g (by simp [hg])
      · have hne : f.name ≠ g.name := by
          simp only [List.map_cons, List.nodup_cons] at hdup
          intro heq
          exact hdup.1 (by rw [heq]; exact List.mem_map.2 ⟨g, hg, rfl⟩)
        simp [findNamedIdx, File.name, hne]
    have hdup1 : (t.map File.name).Nodup := by
      simp only [List.map_cons, List.nodup_cons] at hdup
      exact hdup.2
    obtain ⟨ih1, ih2, ih3⟩ := ih _ hfr1 hdup1
    refine ⟨by simpa [Dir.name] using ih1, by simpa [Dir.subDirs] using ih2, ?_⟩
    rw [ih3]
    simp [Dir.filesL, Dir.subFiles]

theorem allPayloads_parts (n : String) (sf : Option (List File)) (sd : Option (List Dir))
    (h : Dir.allPayloadsPresent (.mk n sf sd) = true) :
    (∀ f ∈ sf.getD [], f.data.isSome = true) ∧
    Dir.allPayloadsPresentL (sd.getD []) = true := by
  unfold Dir.allPayloadsPresent at h
  simp only [Bool.and_eq_true, List.all_eq_true] at h
  refine ⟨h.1, ?_⟩
  cases sd with
  | none => rfl
  | some l => exact h.2

theorem allPayloadsL_parts (c : Dir) (cs : List Dir)
    (h : Dir.allPayloadsPresentL (c :: cs) = true) :
    c.allPayloadsPresent = true ∧ Dir.allPayloadsPresentL cs = true := by
  simp only [Dir.allPayloadsPresentL, Bool.and_eq_true] at h
  exact h

mutual
theorem reload_spec (d : Dir) (hwf : d.WF = true) (hpay : d.allPayloadsPresent = true) :
    ∃ d2, Dir.fromEntry d.name d.mat = .ok d2 ∧ d.SameShape d2 := by
  cases d with
  | mk n sf sd =>
    obtain ⟨hvn, hfdup, hddup, hwfl⟩ := WF_parts n sf sd hwf
    obtain ⟨hpayf, hpayl⟩ := allPayloads_parts n sf sd hpay
    have hmatskip : ∀ rest root,
        Dir.fromEntriesD root
          ((sf.getD []).map (fun f => (f.name, Entry.file f.dataStr)) ++ rest) =
          Dir.fromEntriesD root rest := fun rest root => fromEntriesD_skip_files _ rest root
    cases sd with
    | none =>
      have hD0 : Dir.fromEntriesD (Dir.mk n none none)
          ((sf.getD []).map (fun f => (f.name, Entry.file f.dataStr))) =
          .ok (Dir.mk n none none) := by
        have h0 := fromEntriesD_skip_files (sf.getD []) [] (Dir.mk n none none)
        simpa [Dir.fromEntriesD] using h0
      obtain ⟨hF1, hF2, hF3⟩ := fromEntriesF_files (sf.getD []) (Dir.mk n none none)
        (by intro f hf; rfl) hfdup
      refine ⟨Dir.fromEntriesF (Dir.mk n none none)
        ((sf.getD []).map (fun f => (f.name, Entry.file f.dataStr))), ?_, ?_⟩
      · show Dir.fromEntry n (Dir.mat (.mk n sf none)) = _
        have hmat : Dir.mat (.mk n sf none) =
            .dir ((sf.getD []).map (fun f => (f.name, Entry.file f.dataStr))) := by
          simp [Dir.mat]
        unfold Dir.fromEntry
        rw [hmat]
        simp only [hvn, if_true, hD0]
      · unfold Dir.SameShape
        refine ⟨hF1.symm, ?_, ?_⟩
        · rw [Dir.filesPairs, hF3, payloads_map_id (sf.getD []) hpayf]
          simp [Dir.filesL, Dir.subFiles]
        · rw [Dir.dirsL, hF2]
          rfl
    | some l =>
      obtain ⟨root2, hok2, hn2, hsf2, l2, hdl2, hshape2⟩ :=
        reloadL_spec l (Dir.mk n none none) (by simpa using hwfl)
          (by simpa using hpayl) (by simpa using hddup) (by intro c hc; rfl)
      have hD0 : Dir.fromEntriesD (Dir.mk n none none)
          ((sf.getD []).map (fun f => (f.name, Entry.file f.dataStr)) ++ Dir.matL l) =
          .ok root2 := by
        rw [fromEntriesD_skip_files]
        exact hok2
      have hfl2 : root2.filesL = [] := by
        rw [Dir.filesL, hsf2]
        rfl
      obtain ⟨hF1, hF2, hF3⟩ := fromEntriesF_files (sf.getD []) root2
        (by intro f hf; simp [Dir.hasFileIdx, hfl2, findNamedIdx]) hfdup
      refine ⟨Dir.fromEntriesF root2
        ((sf.getD []).map (fun f => (f.name, Entry.file f.dataStr))), ?_, ?_⟩
      · show Dir.fromEntry n (Dir.mat (.mk n sf (some l))) = _
        have hmat : Dir.mat (.mk n sf (some l)) =
            .dir ((sf.getD []).map (fun f => (f.name, Entry.file f.dataStr)) ++
              Dir.matL l) := by
          simp [Dir.mat]
        unfold Dir.fromEntry
        rw [hmat]
        simp only [hvn, if_true, hD0]
        rw [fromEntriesF_append, fromEntriesF_skip_dirs]
      · unfold Dir.SameShape
        refine ⟨(hF1.trans hn2).symm, ?_, ?_⟩
        · rw [Dir.filesPairs, hF3, hfl2, payloads_map_id (sf.getD []) hpayf]
          simp
        · refine ⟨l2, ?_, hshape2⟩
          have hdl : (Dir.fromEntriesF root2
              ((sf.getD []).map (fun f => (f.name, Entry.file f.dataStr)))).dirsL =
              root2.dirsL := by
            simp [Dir.dirsL, hF2]
          rw [hdl, hdl2]
          simp [Dir.dirsL, Dir.subDirs]

theorem reloadL_spec (l : List Dir) (root : Dir) (hwfl : Dir.WFL l = true)
    (hpayl : Dir.allPayloadsPresentL l = true)
    (hdup : (l.map Dir.name).Nodup)
    (hfresh : ∀ c ∈ l, root.hasDirIdx c.name = none) :
    ∃ root', Dir.fromEntriesD root (Dir.matL l) = .ok root' ∧
      root'.name = root.name ∧ root'.subFiles = root.subFiles ∧
      ∃ l2, root'.dirsL = root.dirsL ++ l2 ∧ Dir.SameShapeL l l2 := by
  cases l with
  | nil => exact ⟨root, rfl, rfl, rfl, [], by simp, trivial⟩
  | cons c cs =>
    obtain ⟨hwfc, hwfcs⟩ := WFL_parts c cs hwfl
    obtain ⟨hpayc, hpaycs⟩ := allPayloadsL_parts c cs hpayl
    simp only [List.map_cons, List.nodup_cons] at hdup
    obtain ⟨c2, hc2ok, hc2shape⟩ := reload_spec c hwfc hpayc
    obtain ⟨ces, hces⟩ := mat_isDir c
    rw [hces] at hc2ok
    have hname2 : c2.name = c.name := (SameShape_name c c2 hc2shape).symm
    have haddc := addDir_append root c2 (by rw [hname2]; exact hfresh c (by simp))
    have hfr1 : ∀ c' ∈ cs,
        Dir.hasDirIdx (.mk root.name root.subFiles (some (root.dirsL ++ [c2])))
          c'.name = none := by
      intro c' hc'
      simp only [Dir.hasDirIdx, Dir.dirsL, Dir.subDirs, Option.getD_some]
      refine findNamedIdx_append_none _ _ _ _ ?_ ?_
      · simpa [Dir.hasDirIdx] using hfresh c' (by simp [hc'])
      · have hne : c2.name ≠ c'.name := by
          rw [hname2]
          intro heq
          exact hdup.1 (by rw [heq]; exact List.mem_map.2 ⟨c', hc', rfl⟩)
        simp [findNamedIdx, hne]
    obtain ⟨root2, hok2, hn2, hsf2, l2, hdl2, hshape2⟩ :=
      reloadL_spec cs (.mk root.name root.subFiles (some (root.dirsL ++ [c2])))
        hwfcs hpaycs hdup.2 hfr1
    refine ⟨root2, ?_, ?_, ?_, c2 :: l2, ?_, hc2shape, hshape2⟩
    · simp only [Dir.matL, hces, Dir.fromEntriesD, hc2ok]
      rw [← haddc] at hok2
      exact hok2
    · simpa [Dir.name] using hn2
    · simpa [Dir.subFiles] using hsf2
    · rw [hdl2]
      simp [Dir.dirsL, Dir.subDirs]
end

theorem getLastD_snoc (l : List String) (a d : String) : (l ++ [a]).getLastD d = a := by
  induction l generalizing d with
  | nil => rfl
  | cons b t ih => simpa [List.getLastD] using ih d

/-- C2: writing a fully in-memory, well-formed tree (unique valid names per
kind, every file payload present) into a fresh location on disk and reloading
the written root directory with fromDiskPath yields a tree with the same name
structure at every level and identical payload for every file, compared up to
child order — hence independent of the order in which children were inserted
before the write. -/
theorem c2_roundtrip (d : Dir) (path : Path) (isOverwrite : Bool)
    (disk disk' : Entry) (es : List (String × Entry)) (evs : List Ev)
    (hwf : d.WF = true) (hpay : d.allPayloadsPresent = true)
    (hparent : disk.lookup path = some (.dir es))
    (hfresh : findEntry es d.name = none)
    (hw : d.write path isOverwrite disk = .ok (disk', evs)) :
    ∃ d2, Dir.fromDiskPath disk' (path ++ [d.name]) = .ok d2 ∧ d.SameShape d2 := by
  have hmod := write_disk_spec d path isOverwrite disk disk' es evs hwf hparent hfresh hw
  have hlk' : disk'.lookup path = some (.dir (es ++ [(d.name, d.mat)])) :=
    lookup_modifyAt_self _ disk disk' path es hmod hparent
  have hlkT : disk'.lookup (path ++ [d.name]) = some d.mat := by
    rw [lookup_snoc, hlk']
    show findEntry (es ++ [(d.name, d.mat)]) d.name = some d.mat
    rw [findEntry_append, hfresh]
    simp [findEntry]
  obtain ⟨d2, hok, hshape⟩ := reload_spec d hwf hpay
  refine ⟨d2, ?_, hshape⟩
  unfold Dir.fromDiskPath
  rw [hlkT]
  simp only [getLastD_snoc]
  exact hok

/-- C2 witness: the sample tree written at the root of an empty disk and
reloaded. -/
theorem c2_roundtrip_witness :
    ∃ d2, Dir.fromDiskPath
      (Entry.dir [("proj", Entry.dir
        [("a.txt", Entry.file "hi"), ("c.txt", Entry.file "yo"),
         ("src", Entry.dir [("b.txt", Entry.file "bye")])])])
      ([] ++ [sampleTree.name]) = .ok d2 ∧
      sampleTree.SameShape d2 :=
  c2_roundtrip sampleTree [] true (Entry.dir [])
    (Entry.dir [("proj", Entry.dir
      [("a.txt", Entry.file "hi"), ("c.txt", Entry.file "yo"),
       ("src", Entry.dir [("b.txt", Entry.file "bye")])])])
    []
    [Ev.dcall [] "proj" true, Ev.mkdir [] "proj",
      Ev.fwrite ["proj"] "a.txt" true, Ev.fwrite ["proj"] "c.txt" true,
      Ev.dcall ["proj"] "src" true, Ev.mkdir ["proj"] "src",
      Ev.fwrite ["proj", "src"] "b.txt" true]
    (by decide) (by decide) rfl rfl rfl

end wfs
